import Mathlib

/-!
# Verification of the STM runtime specification (tim-smart/stm)

This development gives a shallow embedding of the STM engine described by the
specification (transaction terms, per-transaction journal, executor, commit
coordinator) together with the transactional hub and priority queue, and
proves the stated properties about them.

The repository ships only the public declaration files (`THub.ts`, `STM.ts`,
`TPriorityQueue.ts`, `TRef.ts` docs), the `TryCommit` data type
(`internal/stm/tryCommit.ts`) and the hub test suite; the bodies of the
internal modules (`internal/core.ts`, `internal/stm.ts`, `internal/tHub.ts`,
`internal/tPriorityQueue.ts`) are not present.  Every definition below that
corresponds to a missing body is therefore modelled from the specification's
words (sections 3, 4.3, 4.4, 4.6, 4.7, 7 and 8 of the design document) and
from the doc comments of the declaration files, and is marked as such.
-/

namespace STMSpec

/-- Modelled from the spec: a journal entry (§3 "Journal entry").  For each
cell touched by a transaction: the version observed on first touch, the
tentative value, and whether the cell was written. -/
structure JEntry (V : Type) where
  observedVersion : Nat
  tentativeValue : V
  wasWritten : Bool
  deriving Repr, DecidableEq

/-- Modelled from the spec: a journal (§3 "Journal") is a mapping from cell
identity (a stable integer id, §9) to a journal entry.  It is represented as
an association list with unique keys; lookups go through `List.lookup`. -/
abbrev Journal (V : Type) : Type := List (Nat × JEntry V)

/-- Modelled from the spec: the live cell store (§3 "Cell").  Every cell id
owns a current value and a monotonically increasing version number. -/
structure Store (V : Type) where
  vals : Nat → V
  vers : Nat → Nat

/-- Modelled from the spec: the transaction term language (§3 "Transaction
term"): a tagged variant tree over the primitives.  `sync`, environment
access and `interrupt` are not needed by any claim and are omitted; `orElse`
is included as the derived combinator of `internal/stm.ts` whose documented
behaviour is "tries this effect first, and if it fails or retries, tries the
other effect" (with the journal reset before the alternative runs).
Values stored in cells have the fixed type `V`; defects are modelled as
`Nat` codes. -/
inductive STM (V E : Type) : Type → Type 1 where
  | succeed {A : Type} (a : A) : STM V E A
  | fail {A : Type} (e : E) : STM V E A
  | retry {A : Type} : STM V E A
  | die {A : Type} (defect : Nat) : STM V E A
  | read (cell : Nat) : STM V E V
  | write (cell : Nat) (v : V) : STM V E Unit
  | flatMap {A B : Type} (t : STM V E A) (k : A → STM V E B) : STM V E B
  | foldSTM {A B : Type} (t : STM V E A) (onFail : E → STM V E B)
      (onSucceed : A → STM V E B) : STM V E B
  | orTry {A : Type} (t1 t2 : STM V E A) : STM V E A
  | orElse {A : Type} (t1 t2 : STM V E A) : STM V E A

/-- Modelled from the spec: the four orthogonal outcomes of a transaction
attempt (§4.3, §7): Success, Failure, Retry, Die. -/
inductive Outcome (V E A : Type) : Type where
  | success (a : A)
  | failure (e : E)
  | retry
  | die (defect : Nat)
  deriving Repr

/-- Update the entry for cell `c` in place (the key set is unchanged). -/
def updateJ {V : Type} (j : Journal V) (c : Nat) (e : JEntry V) : Journal V :=
  j.map (fun p => if p.1 = c then (c, e) else p)

/-- Install a fresh entry for cell `c` (the cell was not yet in the journal). -/
def insertJ {V : Type} (j : Journal V) (c : Nat) (e : JEntry V) : Journal V :=
  j ++ [(c, e)]

/-- Modelled from the spec (§4.3 `or_try`): when the first branch retries,
merge only the *reads* of the branch journal into the parent journal, so the
outer transaction remains observant of those cells for wakeups.  Cells the
branch touched that the parent had not touched are added as read-only
entries seeded from the live store; writes of the aborted branch never leak. -/
def mergeReads {V : Type} (s : Store V) (parent child : Journal V) : Journal V :=
  parent ++ (child.filter (fun p => (parent.lookup p.1).isNone)).map
    (fun p => (p.1, ⟨s.vers p.1, s.vals p.1, false⟩))

/-- Modelled from the spec: the executor (§4.3).  Walks a transaction term
against the live store and the journal, producing an outcome and the final
journal.  `read` installs a fresh entry on first touch (§4.1 `unsafe_get`),
`write` installs or updates the entry flipping `was_written` (§4.1
`unsafe_set`), `flat_map` sequences on success, `fold` traps Failure but not
Retry and not Die (§4.3), `or_try` falls through to its second branch
exactly on Retry (merging only reads, §4.3), and `orElse` falls through both
on Failure (after resetting the journal to the snapshot taken before the
first branch) and on Retry. -/
def run {V E : Type} : {A : Type} → STM V E A → Store V → Journal V →
    Outcome V E A × Journal V
  | _, .succeed a, _, j => (.success a, j)
  | _, .fail e, _, j => (.failure e, j)
  | _, .retry, _, j => (.retry, j)
  | _, .die d, _, j => (.die d, j)
  | _, .read c, s, j =>
    match j.lookup c with
    | some entry => (.success entry.tentativeValue, j)
    | none => (.success (s.vals c), insertJ j c ⟨s.vers c, s.vals c, false⟩)
  | _, .write c v, s, j =>
    match j.lookup c with
    | some entry => (.success (), updateJ j c ⟨entry.observedVersion, v, true⟩)
    | none => (.success (), insertJ j c ⟨s.vers c, v, true⟩)
  | _, .flatMap t k, s, j =>
    match run t s j with
    | (.success a, j') => run (k a) s j'
    | (.failure e, j') => (.failure e, j')
    | (.retry, j') => (.retry, j')
    | (.die d, j') => (.die d, j')
  | _, .foldSTM t onFail onSucceed, s, j =>
    match run t s j with
    | (.success a, j') => run (onSucceed a) s j'
    | (.failure e, j') => run (onFail e) s j'
    | (.retry, j') => (.retry, j')
    | (.die d, j') => (.die d, j')
  | _, .orTry t1 t2, s, j =>
    match run t1 s j with
    | (.success a, jc) => (.success a, jc)
    | (.failure e, jc) => (.failure e, jc)
    | (.retry, jc) => run t2 s (mergeReads s j jc)
    | (.die d, jc) => (.die d, jc)
  | _, .orElse t1 t2, s, j =>
    match run t1 s j with
    | (.success a, jc) => (.success a, jc)
    | (.failure _, _) => run t2 s j
    | (.retry, jc) => run t2 s (mergeReads s j jc)
    | (.die d, jc) => (.die d, jc)

/-- Modelled from the spec: an `Exit` as carried by `Done` (§7): a committed
transaction delivers Success, Failure or Die to the caller — there is no
Retry exit. -/
inductive Exit (E A : Type) : Type where
  | succeed (a : A)
  | fail (e : E)
  | die (defect : Nat)
  deriving Repr

/-- The `TryCommit` type of `internal/stm/tryCommit.ts`: a commit attempt is
either `Done` carrying an `Exit`, or `Suspend` carrying the journal whose
observed cells the parked fiber waits on. -/
inductive TryCommit (V E A : Type) : Type where
  | done (exit : Exit E A)
  | suspend (journal : Journal V)

/-- Modelled from the spec (§4.4 step 4): publish a journal into the live
store — for every entry with `was_written = true`, write `tentative_value`
into the cell and increment its version. -/
def commitJournal {V : Type} (j : Journal V) (s : Store V) : Store V where
  vals := fun c =>
    match j.lookup c with
    | some e => if e.wasWritten then e.tentativeValue else s.vals c
    | none => s.vals c
  vers := fun c =>
    match j.lookup c with
    | some e => if e.wasWritten then s.vers c + 1 else s.vers c
    | none => s.vers c

/-- Modelled from the spec: one commit attempt of a completed transaction
(§4.4, §7).  The term is run against a fresh journal; a Success publishes
the journal's writes, a Failure or Die discards them (writes discarded,
error/defect delivered, §7), and a Retry suspends the fiber carrying the
journal (`Suspend`, §4.4 step 3).  Returns the commit result and the store
after the attempt. -/
def tryCommitSTM {V E A : Type} (t : STM V E A) (s : Store V) :
    TryCommit V E A × Store V :=
  match run t s [] with
  | (.success a, j) => (.done (.succeed a), commitJournal j s)
  | (.failure e, _) => (.done (.fail e), s)
  | (.retry, j) => (.suspend j, s)
  | (.die d, _) => (.done (.die d), s)

/-- Modelled from the spec: the caller-facing commit loop (§4.4, §6
`atomically`).  Attempt `i` runs against `stores i`; a Retry suspends and,
once a wakeup fires, transparently re-runs the same term against the next
observed store.  The changing store function models the writes of other
committed transactions between attempts.  Fuel bounds the number of
attempts; `none` means the fiber is still parked. -/
def atomicallyLoop {V E A : Type} : Nat → STM V E A → (Nat → Store V) → Nat →
    Option (Outcome V E A × Store V)
  | 0, _, _, _ => none
  | fuel + 1, t, stores, i =>
    match run t (stores i) [] with
    | (.success a, j) => some (.success a, commitJournal j (stores i))
    | (.failure e, _) => some (.failure e, stores i)
    | (.retry, _) => atomicallyLoop fuel t stores (i + 1)
    | (.die d, _) => some (.die d, stores i)

/-- The derived `catchAll` combinator: recovers from all errors
(`STM.catchAll`); it desugars to the `fold` primitive (§3). -/
def catchAll {V E A : Type} (h : E → STM V E A) (t : STM V E A) : STM V E A :=
  .foldSTM t h .succeed

/-- The derived `either` combinator (`STM.either`): converts the failure
channel into an `Either`, so the resulting transaction always completes
with Success (unless it retries or dies). -/
def eitherSTM {V E A : Type} (t : STM V E A) : STM V E (E ⊕ A) :=
  .foldSTM t (fun e => .succeed (Sum.inl e)) (fun a => .succeed (Sum.inr a))

/-- The pure `fold` combinator (`STM.fold`): folds over the transaction,
handling both failure and success, but not retry; desugars to the `foldSTM`
primitive. -/
def foldPure {V E A B : Type} (f : E → B) (g : A → B) (t : STM V E A) :
    STM V E B :=
  .foldSTM t (fun e => .succeed (f e)) (fun a => .succeed (g a))

/-- Map a commit result whose success channel carries an `Either` back into
the two channels.  This is `Effect.absolve` restricted to commit results. -/
def absolveExit {V E A : Type} : TryCommit V E (E ⊕ A) × Store V →
    TryCommit V E A × Store V
  | (.done (.succeed (Sum.inl e)), s) => (.done (.fail e), s)
  | (.done (.succeed (Sum.inr a)), s) => (.done (.succeed a), s)
  | (.done (.fail e), s) => (.done (.fail e), s)
  | (.done (.die d), s) => (.done (.die d), s)
  | (.suspend j, s) => (.suspend j, s)

/-- `commitEither` of `internal/stm.ts` as documented in `STM.ts` (lines
441–449): "Commits this transaction atomically, regardless of whether the
transaction is a success or a failure" — implemented as
`absolve(commit(either(self)))`: a Failure is first converted by `either`
into a successful `Left`, so the commit publishes the journal (including
its writes), and the error is then re-delivered to the caller by
`absolve`. -/
def commitEitherSTM {V E A : Type} (t : STM V E A) (s : Store V) :
    TryCommit V E A × Store V :=
  absolveExit (tryCommitSTM (eitherSTM t) s)

theorem lookup_isSome_of_mem {β : Type} (j : List (Nat × β)) (p : Nat × β)
    (hp : p ∈ j) : (j.lookup p.1).isSome = true :=
  List.lookup_isSome_iff.mpr ⟨p, hp, by simp⟩

/-- Merging the reads of a branch journal that touched nothing beyond the
parent journal leaves the parent unchanged. -/
theorem mergeReads_self {V : Type} (s : Store V) (j : Journal V) :
    mergeReads s j j = j := by
  unfold mergeReads
  have hfilter : j.filter (fun p => ((j.lookup p.1).isNone : Bool)) = [] := by
    apply List.filter_eq_nil_iff.mpr
    intro p hp
    have := lookup_isSome_of_mem j p hp
    simp only [Option.isNone]
    cases h : j.lookup p.1 with
    | none => rw [h] at this; simp at this
    | some v => simp
  rw [hfilter]
  simp

theorem lookup_map_prop {β γ : Type} (f : Nat → γ) (P : γ → Prop)
    (hP : ∀ c, P (f c)) :
    ∀ (l : List (Nat × β)) (c : Nat) (e : γ),
      ((l.map (fun p => (p.1, f p.1))).lookup c = some e) → P e := by
  intro l
  induction l with
  | nil => intro c e h; simp at h
  | cons hd tl ih =>
    intro c e h
    rw [List.map_cons, List.lookup_cons] at h
    cases hk : c == hd.1 with
    | true => rw [hk] at h; simp only [Option.some.injEq] at h; subst h; exact hP hd.1
    | false => rw [hk] at h; exact ih c e h

/-- Every entry visible in a merged journal is either the parent's own entry
or a read-only entry: writes of the aborted branch never leak. -/
theorem lookup_mergeReads {V : Type} (s : Store V) (j jc : Journal V)
    (c : Nat) (e : JEntry V) (h : (mergeReads s j jc).lookup c = some e) :
    j.lookup c = some e ∨ e.wasWritten = false := by
  unfold mergeReads at h
  rw [List.lookup_append] at h
  cases hj : j.lookup c with
  | some v =>
    left
    rw [hj] at h
    simp only [Option.or_some] at h
    exact h
  | none =>
    right
    rw [hj] at h
    simp only [Option.none_or] at h
    exact lookup_map_prop (fun c => (⟨s.vers c, s.vals c, false⟩ : JEntry V))
      (fun e => e.wasWritten = false) (fun _ => rfl)
      (jc.filter (fun p => ((j.lookup p.1).isNone : Bool))) c e h

/-- C6: `fold(t, on_fail, on_succeed)` traps only the Failure outcome of `t`:
Failure is routed to `on_fail`, Success to `on_succeed`, while Retry stays
Retry and Die stays Die.  This holds both for the effectful `foldSTM`
primitive and for the pure `fold` combinator that desugars to it. -/
theorem fold_traps_only_failure {V E A B : Type} (t : STM V E A)
    (onFail : E → STM V E B) (onSucceed : A → STM V E B)
    (f : E → B) (g : A → B) (s : Store V) (j : Journal V) :
    (∀ a j', run t s j = (.success a, j') →
      run (.foldSTM t onFail onSucceed) s j = run (onSucceed a) s j') ∧
    (∀ e j', run t s j = (.failure e, j') →
      run (.foldSTM t onFail onSucceed) s j = run (onFail e) s j') ∧
    (∀ j', run t s j = (.retry, j') →
      run (.foldSTM t onFail onSucceed) s j = (.retry, j')) ∧
    (∀ d j', run t s j = (.die d, j') →
      run (.foldSTM t onFail onSucceed) s j = (.die d, j')) ∧
    (∀ e j', run t s j = (.failure e, j') →
      run (foldPure f g t) s j = (.success (f e), j')) ∧
    (∀ a j', run t s j = (.success a, j') →
      run (foldPure f g t) s j = (.success (g a), j')) ∧
    (∀ j', run t s j = (.retry, j') → run (foldPure f g t) s j = (.retry, j')) ∧
    (∀ d j', run t s j = (.die d, j') → run (foldPure f g t) s j = (.die d, j')) := by
  refine ⟨?_, ?_, ?_, ?_, ?_, ?_, ?_, ?_⟩ <;>
    intros <;> simp only [run, foldPure, *]

/-- C7: `flat_map(succeed(x), k)` is equivalent to `k(x)`: from every
starting store and journal the two transactions produce the same outcome and
the same journal, and committing them produces the same commit result and
final cell states. -/
theorem flatMap_succeed_left_identity {V E A B : Type} (x : A)
    (k : A → STM V E B) :
    (∀ (s : Store V) (j : Journal V),
      run (.flatMap (.succeed x) k) s j = run (k x) s j) ∧
    (∀ (s : Store V), tryCommitSTM (.flatMap (.succeed x) k) s = tryCommitSTM (k x) s) := by
  constructor
  · intro s j
    simp only [run]
  · intro s
    unfold tryCommitSTM
    simp only [run]

/-- C8: `or_try(retry, t)` is equivalent to `t` and `or_try(succeed(x), u)`
is equivalent to `succeed(x)` — `orTry` falls through to its second argument
exactly when the first one retries — and every journal entry the fallback
branch starts from is either the parent transaction's own entry or a
read-only entry, so writes of the abandoned retrying branch never leak. -/
theorem orTry_laws {V E A : Type} :
    (∀ (t : STM V E A) (s : Store V) (j : Journal V),
      run (.orTry .retry t) s j = run t s j) ∧
    (∀ (x : A) (u : STM V E A) (s : Store V) (j : Journal V),
      run (.orTry (.succeed x) u) s j = run (.succeed x) s j) ∧
    (∀ (t1 t2 : STM V E A) (s : Store V) (j jc : Journal V),
      run t1 s j = (.retry, jc) →
      run (.orTry t1 t2) s j = run t2 s (mergeReads s j jc) ∧
      ∀ (c : Nat) (e : JEntry V), (mergeReads s j jc).lookup c = some e →
        j.lookup c = some e ∨ e.wasWritten = false) := by
  refine ⟨?_, ?_, ?_⟩
  · intro t s j
    simp only [run, mergeReads_self]
  · intro x u s j
    simp only [run]
  · intro t1 t2 s j jc h
    constructor
    · simp only [run, h]
    · intro c e
      exact lookup_mergeReads s j jc c e

/-- C9: the derived `orElse` combinator falls back to its alternative both
when the first transaction fails and when it retries: `orElse(t)(fail(e))`
is equivalent to `t`, whereas `orTry(fail(e), u)` does not fall back and
still fails with `e`. -/
theorem orElse_falls_back_on_failure {V E A : Type} (e : E) (t : STM V E A) :
    (∀ (s : Store V) (j : Journal V), run (.orElse (.fail e) t) s j = run t s j) ∧
    (∀ (u : STM V E A) (s : Store V) (j : Journal V),
      run (.orTry (.fail e) u) s j = (.failure e, j)) ∧
    (∀ (s : Store V) (j : Journal V), run (.orElse .retry t) s j = run t s j) := by
  refine ⟨?_, ?_, ?_⟩
  · intro s j
    simp only [run]
  · intro u s j
    simp only [run]
  · intro s j
    simp only [run, mergeReads_self]

/-- C1: for every transaction that completes with outcome Failure(e), the
default commit leaves every cell unchanged (all journal writes are
discarded) and delivers the error to the caller; the error is recoverable
via `fold` / `catchAll`; and only the separate `commitEither` operation
publishes the journal's writes regardless of outcome. -/
theorem commit_failure_discards_writes {V E A : Type} (t : STM V E A)
    (s : Store V) (e : E) (j' : Journal V)
    (h : run t s [] = (.failure e, j')) :
    tryCommitSTM t s = (.done (.fail e), s) ∧
    (∀ (hnd : E → STM V E A), run (catchAll hnd t) s [] = run (hnd e) s j') ∧
    (∀ {B : Type} (f : E → B) (g : A → B),
      run (foldPure f g t) s [] = (.success (f e), j')) ∧
    commitEitherSTM t s = (.done (.fail e), commitJournal j' s) := by
  refine ⟨?_, ?_, ?_, ?_⟩
  · unfold tryCommitSTM
    rw [h]
  · intro hnd
    simp only [catchAll, run, h]
  · intro B f g
    simp only [foldPure, run, h]
  · have heither : run (eitherSTM t) s [] = (.success (Sum.inl e), j') := by
      simp only [eitherSTM, run, h]
    unfold commitEitherSTM tryCommitSTM
    rw [heither]
    rfl

/-- C2: the outcome a caller receives from the commit loop is never Retry:
a single commit attempt is either `Done` carrying an Exit (Success, Failure
or Die) or `Suspend` carrying the journal, and on Retry the transaction is
transparently re-run against the next observed store instead of surfacing. -/
theorem atomically_never_returns_retry {V E A : Type} :
    (∀ (fuel : Nat) (t : STM V E A) (stores : Nat → Store V) (i : Nat)
        (o : Outcome V E A) (s' : Store V),
      atomicallyLoop fuel t stores i = some (o, s') → o ≠ .retry) ∧
    (∀ (t : STM V E A) (s : Store V),
      ((run t s []).1 = .retry → (tryCommitSTM t s).1 = .suspend (run t s []).2) ∧
      ((run t s []).1 ≠ .retry → ∃ ex, (tryCommitSTM t s).1 = .done ex)) ∧
    (∀ (fuel : Nat) (t : STM V E A) (stores : Nat → Store V) (i : Nat),
      (run t (stores i) []).1 = .retry →
      atomicallyLoop (fuel + 1) t stores i = atomicallyLoop fuel t stores (i + 1)) := by
  refine ⟨?_, ?_, ?_⟩
  · intro fuel
    induction fuel with
    | zero => intro t stores i o s' h; simp [atomicallyLoop] at h
    | succ n ih =>
      intro t stores i o s' h
      rw [atomicallyLoop] at h
      cases hr : run t (stores i) [] with
      | mk o' jr =>
        rw [hr] at h
        cases o' with
        | success a => cases h; intro hc; cases hc
        | failure e => cases h; intro hc; cases hc
        | retry => exact ih t stores (i + 1) o s' h
        | die d => cases h; intro hc; cases hc
  · intro t s
    constructor
    · intro hret
      unfold tryCommitSTM
      cases hr : run t s [] with
      | mk o jr =>
        rw [hr] at hret
        cases o with
        | success a => cases hret
        | failure e => cases hret
        | retry => simp [hr]
        | die d => cases hret
    · intro hnret
      unfold tryCommitSTM
      cases hr : run t s [] with
      | mk o jr =>
        rw [hr] at hnret
        cases o with
        | success a => exact ⟨.succeed a, rfl⟩
        | failure e => exact ⟨.fail e, rfl⟩
        | retry => exact absurd rfl hnret
        | die d => exact ⟨.die d, rfl⟩
  · intro fuel t stores i hret
    rw [atomicallyLoop]
    cases hr : run t (stores i) [] with
    | mk o jr =>
      rw [hr] at hret
      cases o with
      | success a => cases hret
      | failure e => cases hret
      | retry => rfl
      | die d => cases hret

/-- A concrete store for witnesses: every cell holds `0` at version `0`. -/
def store0 : Store Int := ⟨fun _ => 0, fun _ => 0⟩

/-- A concrete failing transaction that first writes cell 0: used to witness
that the default commit discards the write while `commitEither` publishes
it. -/
def failAfterWrite : STM Int Nat Unit :=
  .flatMap (.write 0 42) (fun _ => .fail 7)

theorem fold_traps_only_failure_witness :
    run (.foldSTM (.fail 3) (fun e => .succeed (e + 1)) (fun a => .succeed a))
        store0 ([] : Journal Int) =
      run (V := Int) (E := Nat) (.succeed (3 + 1)) store0 [] :=
  (fold_traps_only_failure (V := Int) (.fail 3) (fun e => .succeed (e + 1))
    (fun a : Nat => .succeed a) (fun e => e) (fun a => a) store0 []).2.1 3 [] rfl

theorem orTry_laws_witness :
    run (.orTry (.retry) (.succeed (9 : Int))) store0 ([] : Journal Int) =
      run (V := Int) (E := Nat) (.succeed 9) store0 (mergeReads store0 [] []) ∧
    ∀ (c : Nat) (e : JEntry Int), (mergeReads store0 [] []).lookup c = some e →
      List.lookup c ([] : Journal Int) = some e ∨ e.wasWritten = false :=
  (orTry_laws (V := Int) (E := Nat) (A := Int)).2.2 .retry (.succeed 9)
    store0 [] [] rfl

theorem commit_failure_discards_writes_witness :
    tryCommitSTM failAfterWrite store0 = (.done (.fail 7), store0) ∧
    commitEitherSTM failAfterWrite store0 =
      (.done (.fail 7), commitJournal [(0, ⟨0, 42, true⟩)] store0) := by
  have h := commit_failure_discards_writes failAfterWrite store0 7
    [(0, ⟨0, 42, true⟩)] rfl
  exact ⟨h.1, h.2.2.2⟩

theorem atomically_never_returns_retry_witness :
    (Outcome.success (5 : Int) : Outcome Int Nat Int) ≠ .retry :=
  (atomically_never_returns_retry (V := Int) (E := Nat) (A := Int)).1
    1 (.succeed 5) (fun _ => store0) 0 (.success 5)
    (commitJournal [] store0) rfl

end STMSpec

namespace HubSpec

/-- Modelled from the spec: the four admission strategies (§4.6, §6). -/
inductive Strategy : Type where
  | backpressure
  | dropping
  | sliding
  | unbounded
  deriving Repr, DecidableEq

/-- Modelled from the spec: the transactional hub (§3 "Transactional hub",
§4.7).  Since every hub operation is a single transaction over the hub's
refs, the hub is embedded by its committed state: the (monotone) log of all
published messages stands for the publisher-node list, and each subscriber
is a cursor into that log (`none` after unsubscribe).  `publisher_tail` is
the end of the log; a new subscriber's cursor starts there.  Node
reclamation at `publisher_head` does not change any observable value and is
left implicit. -/
structure Hub (A : Type) where
  published : List A
  cursors : List (Option Nat)
  capacity : Nat
  strategy : Strategy
  deriving Repr, DecidableEq

/-- A fresh hub with the given capacity and strategy (§6 constructors). -/
def emptyHub (A : Type) (cap : Nat) (strat : Strategy) : Hub A :=
  ⟨[], [], cap, strat⟩

/-- The cursors of the live (still subscribed) subscribers. -/
def aliveCursors {A : Type} (self : Hub A) : List Nat :=
  self.cursors.filterMap id

/-- The number of live subscribers (`subscriber_count`, §3). -/
def aliveCount {A : Type} (self : Hub A) : Nat :=
  (aliveCursors self).length

/-- Modelled from the spec: the hub's size invariant (§3): the size equals
the maximum distance between `publisher_tail` and any subscriber's cursor. -/
def hubSize {A : Type} (self : Hub A) : Nat :=
  (aliveCursors self).foldr (fun c m => max (self.published.length - c) m) 0

/-- Append a new publisher node carrying `v` (§4.7 publish: "append a new
node with `remaining_subscribers = subscriber_count`, bump size"). -/
def append {A : Type} (self : Hub A) (v : A) : Hub A :=
  { self with published := self.published ++ [v] }

/-- Modelled from the spec (§4.7 slide): remove the head node, advancing
every subscriber cursor that pointed at it by one node.  The head node is
the earliest node still referenced, i.e. the minimum live cursor. -/
def slide {A : Type} (self : Hub A) : Hub A :=
  if hubSize self = 0 then self
  else
    let m := (aliveCursors self).foldr min self.published.length
    { self with
      cursors := self.cursors.map (fun oc =>
        match oc with
        | some c => some (if c = m then m + 1 else c)
        | none => none) }

/-- Modelled from the spec (§4.7 publish): if no subscribers exist, succeed
with `true` (the message has nowhere to go, successful by convention).
Otherwise, if the hub is at capacity, apply the admission strategy:
backpressure retries (`none`), dropping returns `false`, sliding drops the
head and proceeds, unbounded always accepts.  Otherwise append. -/
def publish {A : Type} (self : Hub A) (v : A) : Option (Bool × Hub A) :=
  if aliveCount self = 0 then some (true, self)
  else if self.capacity ≤ hubSize self then
    match self.strategy with
    | .backpressure => none
    | .dropping => some (false, self)
    | .sliding => some (true, append (slide self) v)
    | .unbounded => some (true, append self v)
  else some (true, append self v)

/-- Modelled from the spec (§4.7 take): if the subscriber's cursor equals
`publisher_tail` (nothing new), retry (`none`); otherwise return the value
at the cursor and advance the cursor one step. -/
def take {A : Type} (self : Hub A) (s : Nat) : Option (A × Hub A) :=
  match self.cursors[s]? with
  | some (some c) =>
    match self.published[c]? with
    | some v => some (v, { self with cursors := self.cursors.set s (some (c + 1)) })
    | none => none
  | _ => none

/-- Modelled from the spec (§4.7 subscribe): allocate a new subscriber
cursor pointing at `publisher_tail`, so the subscriber sees only messages
published after subscription.  Returns the subscriber id and the new hub. -/
def subscribe {A : Type} (self : Hub A) : Nat × Hub A :=
  (self.cursors.length,
   { self with cursors := self.cursors ++ [some self.published.length] })

/-- Modelled from the spec (§4.7 unsubscribe): remove the subscriber from
the subscriber set. -/
def unsubscribe {A : Type} (self : Hub A) (s : Nat) : Hub A :=
  { self with cursors := self.cursors.set s none }

/-- The messages a subscriber has yet to take: the log past its cursor. -/
def pending {A : Type} (self : Hub A) (s : Nat) : List A :=
  match self.cursors[s]? with
  | some (some c) => self.published.drop c
  | _ => []

/-- Publish a whole list sequentially; `none` if any publish retries. -/
def publishList {A : Type} (self : Hub A) : List A → Option (List Bool × Hub A)
  | [] => some ([], self)
  | v :: vs =>
    (publish self v).bind (fun r =>
      (publishList r.2 vs).map (fun r' => (r.1 :: r'.1, r'.2)))

/-- Take `k` messages sequentially for subscriber `s`; `none` if any take
retries. -/
def takeList {A : Type} (self : Hub A) (s : Nat) : Nat → Option (List A × Hub A)
  | 0 => some ([], self)
  | k + 1 =>
    (take self s).bind (fun r =>
      (takeList r.2 s k).map (fun r' => (r.1 :: r'.1, r'.2)))

/-- Modelled from the spec (§8 scenarios 1 and 2): states reachable from a
fresh hub through committed hub transactions. -/
inductive ReachHub (A : Type) (cap : Nat) (strat : Strategy) : Hub A → Prop where
  | init : ReachHub A cap strat (emptyHub A cap strat)
  | pub {h : Hub A} {v : A} {b : Bool} {h' : Hub A} :
      ReachHub A cap strat h → publish h v = some (b, h') → ReachHub A cap strat h'
  | take_ {h : Hub A} {s : Nat} {v : A} {h' : Hub A} :
      ReachHub A cap strat h → take h s = some (v, h') → ReachHub A cap strat h'
  | sub {h : Hub A} : ReachHub A cap strat h → ReachHub A cap strat (subscribe h).2
  | unsub {h : Hub A} {s : Nat} :
      ReachHub A cap strat h → ReachHub A cap strat (unsubscribe h s)

theorem foldr_max_le (l : List Nat) (f : Nat → Nat) (b : Nat)
    (hb : ∀ c ∈ l, f c ≤ b) : l.foldr (fun c m => max (f c) m) 0 ≤ b := by
  induction l with
  | nil => simp
  | cons a t ih =>
    simp only [List.foldr_cons, max_le_iff]
    exact ⟨hb a (List.mem_cons_self a t),
      ih (fun c hc => hb c (List.mem_cons_of_mem a hc))⟩

theorem le_foldr_max (l : List Nat) (f : Nat → Nat) (c : Nat) (hc : c ∈ l) :
    f c ≤ l.foldr (fun c m => max (f c) m) 0 := by
  induction l with
  | nil => cases hc
  | cons a t ih =>
    simp only [List.foldr_cons]
    rcases List.mem_cons.mp hc with h | h
    · subst h; exact le_max_left _ _
    · exact le_trans (ih h) (le_max_right _ _)

theorem foldr_max_congr (l : List Nat) (f g : Nat → Nat)
    (h : ∀ c ∈ l, f c = g c) :
    l.foldr (fun c m => max (f c) m) 0 = l.foldr (fun c m => max (g c) m) 0 := by
  induction l with
  | nil => rfl
  | cons a t ih =>
    simp only [List.foldr_cons]
    rw [h a (List.mem_cons_self a t), ih (fun c hc => h c (List.mem_cons_of_mem a hc))]

theorem foldr_max_succ (l : List Nat) (f : Nat → Nat) (hne : l ≠ []) :
    l.foldr (fun c m => max (f c + 1) m) 0 =
      l.foldr (fun c m => max (f c) m) 0 + 1 := by
  induction l with
  | nil => exact absurd rfl hne
  | cons a t ih =>
    cases t with
    | nil => simp
    | cons b t' =>
      simp only [List.foldr_cons] at ih ⊢
      rw [ih (by simp)]
      omega

/-- Appending a message moves every live cursor one node further from the
tail: the hub size grows by exactly one while a subscriber is alive. -/
theorem hubSize_append {A : Type} (h : Hub A) (v : A)
    (hwf : ∀ c ∈ aliveCursors h, c ≤ h.published.length)
    (hne : aliveCursors h ≠ []) :
    hubSize (append h v) = hubSize h + 1 := by
  unfold hubSize append aliveCursors at *
  simp only [List.length_append, List.length_singleton]
  rw [foldr_max_congr _ _ (fun c => h.published.length - c + 1)
    (fun c hc => by
      have := hwf c hc
      show h.published.length + 1 - c = h.published.length - c + 1
      omega)]
  exact foldr_max_succ _ _ hne

/-- The well-formedness invariant carried by reachable back-pressure hubs:
every live cursor is inside the log and within `capacity` of the tail. -/
def InvHub {A : Type} (cap : Nat) (h : Hub A) : Prop :=
  h.capacity = cap ∧ h.strategy = .backpressure ∧
    ∀ c ∈ aliveCursors h, c ≤ h.published.length ∧ h.published.length - c ≤ cap

theorem invHub_reach {A : Type} {cap : Nat} {h : Hub A}
    (hr : ReachHub A cap .backpressure h) : InvHub cap h := by
  induction hr with
  | init => exact ⟨rfl, rfl, by intro c hc; simp [aliveCursors, emptyHub] at hc⟩
  | @pub h v b h' _ hpub ih =>
    obtain ⟨hcap, hstrat, hwf⟩ := ih
    unfold publish at hpub
    by_cases hz : aliveCount h = 0
    · rw [if_pos hz] at hpub
      obtain ⟨-, rfl⟩ := Prod.mk.injEq .. ▸ Option.some.injEq .. ▸ hpub
      exact ⟨hcap, hstrat, hwf⟩
    · rw [if_neg hz] at hpub
      by_cases hfull : h.capacity ≤ hubSize h
      · rw [if_pos hfull, hstrat] at hpub
        cases hpub
      · rw [if_neg hfull] at hpub
        have heq : h' = append h v := by
          cases hpub; rfl
        subst heq
        refine ⟨hcap, hstrat, ?_⟩
        intro c hc
        have hc' : c ∈ aliveCursors h := hc
        have h1 := hwf c hc'
        have h2 : h.published.length - c ≤ hubSize h :=
          le_foldr_max (aliveCursors h) (fun c => h.published.length - c) c hc'
        have h3 : hubSize h < cap := by omega
        unfold append
        simp only [List.length_append, List.length_singleton]
        omega
  | @take_ h s v h' _ htake ih =>
    obtain ⟨hcap, hstrat, hwf⟩ := ih
    unfold take at htake
    cases hcur : h.cursors[s]? with
    | none => simp [hcur] at htake
    | some oc =>
      cases oc with
      | none => simp [hcur] at htake
      | some c =>
        cases hval : h.published[c]? with
        | none => simp [hcur, hval] at htake
        | some w =>
          simp only [hcur, hval] at htake
          have heq : h' = { h with cursors := h.cursors.set s (some (c + 1)) } := by
            cases htake; rfl
          subst heq
          refine ⟨hcap, hstrat, ?_⟩
          intro c' hc'
          have hmem : some c' ∈ h.cursors.set s (some (c + 1)) := by
            simpa [aliveCursors, List.mem_filterMap] using hc'
          have hclen : c < h.published.length := (List.getElem?_eq_some_iff.mp hval).1
          rcases List.mem_or_eq_of_mem_set hmem with hm | hm
          · exact hwf c' (by simpa [aliveCursors, List.mem_filterMap] using hm)
          · have : c' = c + 1 := by injection hm
            subst this
            have hcmem : c ∈ aliveCursors h := by
              simp only [aliveCursors, List.mem_filterMap]
              exact ⟨some c, List.getElem?_mem hcur, rfl⟩
            have := hwf c hcmem
            dsimp only
            omega
  | @sub h _ ih =>
    obtain ⟨hcap, hstrat, hwf⟩ := ih
    refine ⟨hcap, hstrat, ?_⟩
    intro c hc
    have hmem : some c ∈ h.cursors ++ [some h.published.length] := by
      simpa [subscribe, aliveCursors, List.mem_filterMap] using hc
    rcases List.mem_append.mp hmem with hm | hm
    · exact hwf c (by simpa [aliveCursors, List.mem_filterMap] using hm)
    · have : c = h.published.length := by
        simp only [List.mem_singleton] at hm
        injection hm
      subst this
      simp [subscribe]
  | @unsub h s _ ih =>
    obtain ⟨hcap, hstrat, hwf⟩ := ih
    refine ⟨hcap, hstrat, ?_⟩
    intro c hc
    have hmem : some c ∈ h.cursors.set s none := by
      simpa [unsubscribe, aliveCursors, List.mem_filterMap] using hc
    rcases List.mem_or_eq_of_mem_set hmem with hm | hm
    · exact hwf c (by simpa [aliveCursors, List.mem_filterMap] using hm)
    · cases hm

/-- Sequentially publishing `xs` on a back-pressure hub that has room for
all of them succeeds with `true` every time and appends `xs` to the log,
leaving the subscribers untouched. -/
theorem publishList_spec {A : Type} :
    ∀ (xs : List A) (h : Hub A), h.strategy = .backpressure →
    aliveCursors h ≠ [] →
    (∀ c ∈ aliveCursors h, c ≤ h.published.length) →
    hubSize h + xs.length ≤ h.capacity →
    ∃ h', publishList h xs = some (List.replicate xs.length true, h') ∧
      h'.published = h.published ++ xs ∧ h'.cursors = h.cursors ∧
      h'.capacity = h.capacity ∧ h'.strategy = h.strategy := by
  intro xs
  induction xs with
  | nil =>
    intro h _ _ _ _
    exact ⟨h, rfl, by simp, rfl, rfl, rfl⟩
  | cons x xs ih =>
    intro h hstrat hne hwf hcap
    have hlt : hubSize h < h.capacity := by
      simp only [List.length_cons] at hcap
      omega
    have hz : aliveCount h ≠ 0 := fun h0 =>
      hne (List.length_eq_zero.mp h0)
    have hpub : publish h x = some (true, append h x) := by
      unfold publish
      rw [if_neg hz, if_neg (not_le.mpr hlt)]
    have hsz : hubSize (append h x) = hubSize h + 1 := hubSize_append h x hwf hne
    have hwf' : ∀ c ∈ aliveCursors (append h x), c ≤ (append h x).published.length := by
      intro c hc
      have : c ≤ h.published.length := hwf c hc
      simp only [append, List.length_append, List.length_singleton]
      omega
    have hcap' : hubSize (append h x) + xs.length ≤ (append h x).capacity := by
      simp only [List.length_cons] at hcap
      rw [hsz]
      show hubSize h + 1 + xs.length ≤ h.capacity
      omega
    obtain ⟨h', hrun, hpb, hcv, hcp, hst⟩ := ih (append h x) hstrat hne hwf' hcap'
    refine ⟨h', ?_, ?_, hcv, hcp, hst⟩
    · unfold publishList
      rw [hpub]
      simp only [Option.some_bind, hrun, Option.map_some', List.replicate_succ]
      rfl
    · rw [hpb]
      show (h.published ++ [x]) ++ xs = h.published ++ x :: xs
      simp

/-- Sequentially taking `k` messages for a subscriber whose cursor has at
least `k` messages behind the tail yields exactly those messages in log
order, advancing the cursor by `k`. -/
theorem takeList_spec {A : Type} :
    ∀ (k : Nat) (h : Hub A) (sid c : Nat),
    h.cursors[sid]? = some (some c) → c + k ≤ h.published.length →
    ∃ h', takeList h sid k = some ((h.published.drop c).take k, h') ∧
      h'.published = h.published ∧ h'.cursors[sid]? = some (some (c + k)) := by
  intro k
  induction k with
  | zero =>
    intro h sid c hcur _
    exact ⟨h, by simp [takeList], rfl, hcur⟩
  | succ k ih =>
    intro h sid c hcur hlen
    have hclen : c < h.published.length := by omega
    have hval : h.published[c]? = some (h.published[c]) := by
      simp
    have htk : take h sid = some (h.published[c],
        { h with cursors := h.cursors.set sid (some (c + 1)) }) := by
      unfold take
      simp only [hcur, hval]
    have hsidlt : sid < h.cursors.length :=
      (List.getElem?_eq_some_iff.mp hcur).1
    have hcur' : (h.cursors.set sid (some (c + 1)))[sid]? = some (some (c + 1)) := by
      rw [List.getElem?_set]
      simp [hsidlt]
    obtain ⟨h', hrun, hpb, hc'⟩ := ih { h with cursors := h.cursors.set sid (some (c + 1)) }
      sid (c + 1) hcur' (by show c + 1 + k ≤ h.published.length; omega)
    refine ⟨h', ?_, hpb, ?_⟩
    · unfold takeList
      rw [htk]
      simp only [Option.some_bind, hrun, Option.map_some']
      have hdrop : h.published.drop c =
          h.published[c] :: h.published.drop (c + 1) :=
        List.drop_eq_getElem_cons hclen
      rw [hdrop]
      rfl
    · rw [hc']
      congr 2
      omega

/-- The one-publisher/one-subscriber pipeline of the hub test suite
("sequential publishers and subscribers - with one publisher and one
subscriber"): on a fresh bounded hub of capacity `n`, subscribe, publish the
first `n` elements of `as`, then take that many messages. -/
def oneToOne (n : Nat) (as : List Int) : Option (List Int) :=
  let sh := subscribe (emptyHub Int n .backpressure)
  (publishList sh.2 (as.take n)).bind (fun r =>
    (takeList r.2 sh.1 (as.take n).length).map (fun r' => r'.1))

/-- C3 (amended: the per-publish delivery guarantee holds for every
non-sliding hub; a sliding hub's publish at capacity returns `true` yet
drops the oldest message, so there it fails — see the counterexample): a
subscriber sees only the messages published after its subscription, in
publish order: (a) a new subscriber's cursor starts at `publisher_tail`, so
nothing published earlier is pending for it; (b) on every back-pressure,
dropping or unbounded hub, a successful publish appends the message to the
pending sequence of every subscriber alive at publish time (and of no one
else, since later subscribers start at the new tail); (c) with one
publisher and one subscriber on a bounded hub of capacity `n`, publishing
the first `n` elements of a list delivers exactly that list. -/
theorem hub_delivers_in_publish_order :
    (∀ (A : Type) (h : Hub A),
      ((subscribe h).2.cursors)[(subscribe h).1]? = some (some h.published.length)) ∧
    (∀ (A : Type) (h : Hub A) (v : A) (h' : Hub A),
      h.strategy ≠ .sliding → publish h v = some (true, h') →
      aliveCursors h ≠ [] →
      (∀ c ∈ aliveCursors h, c ≤ h.published.length) →
      h'.cursors = h.cursors ∧
      ∀ (sid c : Nat), h.cursors[sid]? = some (some c) →
        pending h' sid = pending h sid ++ [v]) ∧
    (∀ (n : Nat) (as : List Int), oneToOne n as = some (as.take n)) := by
  refine ⟨?_, ?_, ?_⟩
  · intro A h
    simp [subscribe]
  · intro A h v h' hstrat hpub hne hwf
    have hz : aliveCount h ≠ 0 := fun h0 => hne (List.length_eq_zero.mp h0)
    have happ : h' = append h v →
        h'.cursors = h.cursors ∧
        ∀ (sid c : Nat), h.cursors[sid]? = some (some c) →
          pending h' sid = pending h sid ++ [v] := by
      intro heq
      subst heq
      refine ⟨rfl, ?_⟩
      intro sid c hcur
      have hcm : c ∈ aliveCursors h := by
        simp only [aliveCursors, List.mem_filterMap]
        exact ⟨some c, List.getElem?_mem hcur, rfl⟩
      have hcl : c ≤ h.published.length := hwf c hcm
      unfold pending append
      simp only [hcur]
      exact List.drop_append_of_le_length hcl
    unfold publish at hpub
    rw [if_neg hz] at hpub
    by_cases hfull : h.capacity ≤ hubSize h
    · rw [if_pos hfull] at hpub
      cases hs : h.strategy with
      | backpressure => rw [hs] at hpub; cases hpub
      | dropping =>
        rw [hs] at hpub
        simp only [Option.some.injEq, Prod.mk.injEq] at hpub
        exact Bool.noConfusion hpub.1
      | sliding => exact absurd hs hstrat
      | unbounded =>
        rw [hs] at hpub
        simp only [Option.some.injEq, Prod.mk.injEq] at hpub
        exact happ hpub.2.symm
    · rw [if_neg hfull] at hpub
      have heq : h' = append h v := by
        cases hpub; rfl
      exact happ heq
  · intro n as
    have hxslen : (as.take n).length ≤ n := by
      rw [List.length_take]
      exact min_le_left n as.length
    obtain ⟨h2, hpubrun, hpb, hcv, hcp, hst⟩ :=
      publishList_spec (as.take n) (⟨[], [some 0], n, .backpressure⟩ : Hub Int)
        rfl (by simp [aliveCursors]) (by simp [aliveCursors])
        (by simp [hubSize, aliveCursors])
    have hcur2 : h2.cursors[0]? = some (some 0) := by
      rw [hcv]
      rfl
    have hlen2 : 0 + (as.take n).length ≤ h2.published.length := by
      rw [hpb]
      simp
    obtain ⟨h3, htkrun, -, -⟩ := takeList_spec (as.take n).length h2 0 0 hcur2 hlen2
    show (publishList (⟨[], [some 0], n, .backpressure⟩ : Hub Int) (as.take n)).bind
        (fun r => (takeList r.2 0 (as.take n).length).map (fun r' => r'.1)) =
      some (as.take n)
    rw [hpubrun]
    simp only [Option.some_bind]
    rw [htkrun]
    simp only [Option.map_some']
    congr 1
    rw [hpb]
    simp

/-- C3 counterexample: on a sliding hub of capacity 2 holding `[1, 2]` with
one alive subscriber that has taken nothing, publishing `3` returns `true`
yet evicts the head: the subscriber's pending sequence becomes `[2, 3]`
instead of gaining `3` at its end, so message `1` — published with `true`
while the subscriber was alive — is never delivered.  The frozen claim's
"for every hub" delivery guarantee is therefore false on sliding hubs. -/
theorem hub_sliding_drops_delivery_counterexample :
    publish (⟨[1, 2], [some 0], 2, .sliding⟩ : Hub Int) 3 =
      some (true, (⟨[1, 2, 3], [some 1], 2, .sliding⟩ : Hub Int)) ∧
    pending ((⟨[1, 2, 3], [some 1], 2, .sliding⟩ : Hub Int)) 0 ≠
      pending (⟨[1, 2], [some 0], 2, .sliding⟩ : Hub Int) 0 ++ [3] := by
  decide

/-- The concrete back-pressure scenario state: one publisher working through
a queue of messages against one slow subscriber (id 0). -/
structure Sim where
  hub : Hub Int
  toPub : List Int
  got : List Int
  deriving Repr, DecidableEq

/-- One scheduler step of the scenario: the publisher publishes its next
message whenever the hub admits it; when the publisher is blocked by
backpressure (or done) the slow subscriber takes one message. -/
def simStep (st : Sim) : Sim :=
  match st.toPub with
  | p :: ps =>
    match publish st.hub p with
    | some r => ⟨r.2, ps, st.got⟩
    | none =>
      match take st.hub 0 with
      | some r => ⟨r.2, st.toPub, st.got ++ [r.1]⟩
      | none => st
  | [] =>
    match take st.hub 0 with
    | some r => ⟨r.2, [], st.got ++ [r.1]⟩
    | none => st

def simFinal : Nat → Sim → Sim
  | 0, st => st
  | k + 1, st => simFinal k (simStep st)

/-- The hub sizes observed after every step of the scenario. -/
def simSizes : Nat → Sim → List Nat
  | 0, _ => []
  | k + 1, st => hubSize (simStep st).hub :: simSizes k (simStep st)

/-- A capacity-2 back-pressure hub with a single fresh subscriber. -/
def simHub0 : Hub Int := (subscribe (emptyHub Int 2 .backpressure)).2

/-- C4: on a bounded back-pressure hub with at least one subscriber,
publish retries when the hub is full; the hub size never exceeds the
capacity in any reachable state; and in the concrete capacity-2 scenario
the slow subscriber eventually receives `[1,2,3,4,5]` while every observed
size stays `≤ 2`. -/
theorem hub_backpressure_size_bound :
    (∀ (A : Type) (h : Hub A) (v : A), h.strategy = .backpressure →
      aliveCount h ≠ 0 → h.capacity ≤ hubSize h → publish h v = none) ∧
    (∀ (A : Type) (cap : Nat) (h : Hub A),
      ReachHub A cap .backpressure h → hubSize h ≤ cap) ∧
    ((simFinal 12 ⟨simHub0, [1, 2, 3, 4, 5], []⟩).got = [1, 2, 3, 4, 5] ∧
      ∀ z ∈ simSizes 12 ⟨simHub0, [1, 2, 3, 4, 5], []⟩, z ≤ 2) := by
  refine ⟨?_, ?_, ?_⟩
  · intro A h v hstrat hz hfull
    unfold publish
    rw [if_neg hz, if_pos hfull, hstrat]
  · intro A cap h hr
    obtain ⟨-, -, hwf⟩ := invHub_reach hr
    exact foldr_max_le _ _ cap (fun c hc => (hwf c hc).2)
  · constructor
    · decide
    · decide

/-- C5: publishing on a hub with zero subscribers succeeds with `true` and
leaves the hub unchanged, whatever its capacity and admission strategy. -/
theorem publish_without_subscribers_succeeds {A : Type} (h : Hub A) (v : A)
    (hz : aliveCount h = 0) : publish h v = some (true, h) := by
  unfold publish
  rw [if_pos hz]

theorem publish_without_subscribers_succeeds_witness :
    publish (emptyHub Int 0 .dropping) 5 = some (true, emptyHub Int 0 .dropping) :=
  publish_without_subscribers_succeeds (emptyHub Int 0 .dropping) 5 rfl

theorem hub_delivers_in_publish_order_witness :
    pending (append (⟨[], [some 0], 2, .backpressure⟩ : Hub Int) 5) 0 =
      pending (⟨[], [some 0], 2, .backpressure⟩ : Hub Int) 0 ++ [5] ∧
    oneToOne 2 [5, 6, 7] = some [5, 6] :=
  ⟨((hub_delivers_in_publish_order.2.1 Int ⟨[], [some 0], 2, .backpressure⟩ 5
      (append ⟨[], [some 0], 2, .backpressure⟩ 5) (by decide) rfl (by decide)
      (by decide)).2 0 0 rfl),
   hub_delivers_in_publish_order.2.2 2 [5, 6, 7]⟩

theorem hub_backpressure_size_bound_witness :
    publish (⟨[9, 8], [some 0], 2, .backpressure⟩ : Hub Int) 7 = none ∧
    hubSize (emptyHub Int 2 .backpressure) ≤ 2 :=
  ⟨hub_backpressure_size_bound.1 Int ⟨[9, 8], [some 0], 2, .backpressure⟩ 7
      rfl (by decide) (by decide),
   hub_backpressure_size_bound.2.1 Int 2 (emptyHub Int 2 .backpressure)
      ReachHub.init⟩

end HubSpec

namespace PQSpec

/-- The laws a `TPriorityQueue` ordering (`Order.Order<A>`, a three-way
comparator) is assumed to satisfy: a total preorder with `eq` as the
equivalence of equal priorities. -/
structure LawfulCmp {A : Type} (cmp : A → A → Ordering) : Prop where
  eq_refl : ∀ a, cmp a a = .eq
  eq_symm : ∀ a b, cmp a b = .eq → cmp b a = .eq
  eq_trans : ∀ a b c, cmp a b = .eq → cmp b c = .eq → cmp a c = .eq
  lt_trans : ∀ a b c, cmp a b = .lt → cmp b c = .lt → cmp a c = .lt
  eq_lt : ∀ a b c, cmp a b = .eq → cmp b c = .lt → cmp a c = .lt
  lt_eq : ∀ a b c, cmp a b = .lt → cmp b c = .eq → cmp a c = .lt
  gt_swap : ∀ a b, cmp a b = .gt → cmp b a = .lt

/-- Modelled from the spec: `TPriorityQueue` holds a
`SortedMap<A, [A, ...Array<A>]>` in a ref — keys ordered by the `Order`,
each key mapping to the non-empty bucket of values offered with that
priority.  The sorted map is embedded as the list of buckets in ascending
key order. -/
structure TPQ (A : Type) where
  buckets : List (A × List A)
  deriving Repr, DecidableEq

/-- `TPriorityQueue.empty`: a fresh queue with no values. -/
def emptyPQ (A : Type) : TPQ A := ⟨[]⟩

/-- Insert a value into the sorted bucket list: before the first key that
compares greater, appended to the bucket of a key that compares equal. -/
def insertBucket {A : Type} (cmp : A → A → Ordering) (v : A) :
    List (A × List A) → List (A × List A)
  | [] => [(v, [v])]
  | (k, vs) :: rest =>
    match cmp v k with
    | .lt => (v, [v]) :: (k, vs) :: rest
    | .eq => (k, vs ++ [v]) :: rest
    | .gt => (k, vs) :: insertBucket cmp v rest

/-- Modelled from the spec: `TPriorityQueue.offer` adds the value under its
own priority key in the sorted map. -/
def offer {A : Type} (cmp : A → A → Ordering) (q : TPQ A) (v : A) : TPQ A :=
  ⟨insertBucket cmp v q.buckets⟩

/-- All values currently in the queue. -/
def elems {A : Type} (q : TPQ A) : List A :=
  (q.buckets.map Prod.snd).flatten

/-- Modelled from the spec: `TPriorityQueue.take` — "takes a value from the
queue, retrying until a value is in the queue" (`none` models the retry);
the value taken is the first value of the minimal key's bucket, i.e. the
value that is first in the specified ordering; the key is removed when its
bucket empties. -/
def take {A : Type} (q : TPQ A) : Option (A × TPQ A) :=
  match q.buckets with
  | [] => none
  | (k, vs) :: rest =>
    match vs with
    | [] => none
    | v :: vtail =>
      match vtail with
      | [] => some (v, ⟨rest⟩)
      | u :: us => some (v, ⟨(k, u :: us) :: rest⟩)

/-- Modelled from the spec: `TPriorityQueue.peek` — the first value in the
queue without removing it, retrying (`none`) while the queue is empty. -/
def peek {A : Type} (q : TPQ A) : Option A :=
  (take q).map Prod.fst

/-- The sortedness invariant of the embedded sorted map: bucket keys
strictly ascending, buckets non-empty, every bucket member of equal
priority to its key. -/
def InvPQ {A : Type} (cmp : A → A → Ordering) (q : TPQ A) : Prop :=
  List.Pairwise (fun a b => cmp a b = .lt) (q.buckets.map Prod.fst) ∧
  ∀ p ∈ q.buckets, p.2 ≠ [] ∧ ∀ w ∈ p.2, cmp w p.1 = .eq

/-- Queue states reachable from the empty queue through offers and takes. -/
inductive ReachPQ {A : Type} (cmp : A → A → Ordering) : TPQ A → Prop where
  | empty : ReachPQ cmp (emptyPQ A)
  | offer {q : TPQ A} {v : A} : ReachPQ cmp q → ReachPQ cmp (offer cmp q v)
  | take_ {q : TPQ A} {v : A} {q' : TPQ A} :
      ReachPQ cmp q → take q = some (v, q') → ReachPQ cmp q'

theorem insertBucket_keys {A : Type} (cmp : A → A → Ordering) (v : A) :
    ∀ (bs : List (A × List A)) (a : A),
      a ∈ (insertBucket cmp v bs).map Prod.fst → a = v ∨ a ∈ bs.map Prod.fst := by
  intro bs
  induction bs with
  | nil =>
    intro a ha
    simp [insertBucket] at ha
    exact Or.inl ha
  | cons hd rest ih =>
    obtain ⟨k, vs⟩ := hd
    intro a ha
    unfold insertBucket at ha
    cases hc : cmp v k with
    | lt =>
      rw [hc] at ha
      simp only [List.map_cons, List.mem_cons] at ha ⊢
      tauto
    | eq =>
      rw [hc] at ha
      simp only [List.map_cons, List.mem_cons] at ha ⊢
      tauto
    | gt =>
      rw [hc] at ha
      simp only [List.map_cons, List.mem_cons] at ha ⊢
      rcases ha with ha | ha
      · tauto
      · rcases ih a ha with h | h <;> tauto

theorem insertBucket_sorted {A : Type} {cmp : A → A → Ordering}
    (L : LawfulCmp cmp) (v : A) :
    ∀ (bs : List (A × List A)),
      List.Pairwise (fun a b => cmp a b = .lt) (bs.map Prod.fst) →
      List.Pairwise (fun a b => cmp a b = .lt)
        ((insertBucket cmp v bs).map Prod.fst) := by
  intro bs
  induction bs with
  | nil =>
    intro _
    simp [insertBucket]
  | cons hd rest ih =>
    obtain ⟨k, vs⟩ := hd
    intro hp
    rw [List.map_cons, List.pairwise_cons] at hp
    obtain ⟨hk, hrest⟩ := hp
    unfold insertBucket
    cases hc : cmp v k with
    | lt =>
      simp only [List.map_cons, List.pairwise_cons, List.mem_cons]
      refine ⟨?_, hk, hrest⟩
      rintro b (rfl | hb)
      · exact hc
      · exact L.lt_trans v k b hc (hk b hb)
    | eq =>
      simp only [List.map_cons, List.pairwise_cons]
      exact ⟨hk, hrest⟩
    | gt =>
      simp only [List.map_cons, List.pairwise_cons]
      refine ⟨?_, ih hrest⟩
      intro b hb
      rcases insertBucket_keys cmp v rest b hb with rfl | hb'
      · exact L.gt_swap _ _ hc
      · exact hk b hb'

theorem insertBucket_buckets {A : Type} {cmp : A → A → Ordering}
    (L : LawfulCmp cmp) (v : A) :
    ∀ (bs : List (A × List A)),
      (∀ p ∈ bs, p.2 ≠ [] ∧ ∀ w ∈ p.2, cmp w p.1 = .eq) →
      ∀ p ∈ insertBucket cmp v bs, p.2 ≠ [] ∧ ∀ w ∈ p.2, cmp w p.1 = .eq := by
  intro bs
  induction bs with
  | nil =>
    intro _ p hp
    simp only [insertBucket, List.mem_singleton] at hp
    subst hp
    refine ⟨by simp, ?_⟩
    intro w hw
    simp only [List.mem_singleton] at hw
    subst hw
    exact L.eq_refl _
  | cons hd rest ih =>
    obtain ⟨k, vs⟩ := hd
    intro hb p hp
    have hbhd := hb (k, vs) (List.mem_cons_self _ _)
    have hbrest : ∀ p ∈ rest, p.2 ≠ [] ∧ ∀ w ∈ p.2, cmp w p.1 = .eq :=
      fun p hp => hb p (List.mem_cons_of_mem _ hp)
    unfold insertBucket at hp
    cases hc : cmp v k with
    | lt =>
      rw [hc] at hp
      rcases List.mem_cons.mp hp with rfl | hp'
      · refine ⟨by simp, ?_⟩
        intro w hw
        simp only [List.mem_singleton] at hw
        subst hw
        exact L.eq_refl _
      · exact hb p hp'
    | eq =>
      rw [hc] at hp
      rcases List.mem_cons.mp hp with rfl | hp'
      · refine ⟨by simp, ?_⟩
        intro w hw
        rcases List.mem_append.mp hw with hw' | hw'
        · exact hbhd.2 w hw'
        · simp only [List.mem_singleton] at hw'
          subst hw'
          exact hc
      · exact hbrest p hp'
    | gt =>
      rw [hc] at hp
      rcases List.mem_cons.mp hp with rfl | hp'
      · exact hbhd
      · exact ih hbrest p hp'

theorem invPQ_reach {A : Type} {cmp : A → A → Ordering} (L : LawfulCmp cmp)
    {q : TPQ A} (hr : ReachPQ cmp q) : InvPQ cmp q := by
  induction hr with
  | empty => exact ⟨List.Pairwise.nil, by intro p hp; cases hp⟩
  | @offer q v _ ih =>
    exact ⟨insertBucket_sorted L v q.buckets ih.1,
      insertBucket_buckets L v q.buckets ih.2⟩
  | @take_ q v q' _ htake ih =>
    obtain ⟨hsort, hbuck⟩ := ih
    unfold take at htake
    cases hq : q.buckets with
    | nil => rw [hq] at htake; cases htake
    | cons hd rest =>
      obtain ⟨k, vs⟩ := hd
      rw [hq] at hsort hbuck
      rw [List.map_cons, List.pairwise_cons] at hsort
      cases vs with
      | nil => simp [hq] at htake
      | cons w vtail =>
        cases vtail with
        | nil =>
          simp only [hq, Option.some.injEq, Prod.mk.injEq] at htake
          obtain ⟨-, hq'⟩ := htake
          subst hq'
          refine ⟨hsort.2, ?_⟩
          intro p hp
          exact hbuck p (List.mem_cons_of_mem _ hp)
        | cons u us =>
          simp only [hq, Option.some.injEq, Prod.mk.injEq] at htake
          obtain ⟨-, hq'⟩ := htake
          subst hq'
          constructor
          · rw [List.map_cons, List.pairwise_cons]
            exact hsort
          · intro p hp
            rcases List.mem_cons.mp hp with rfl | hp'
            · refine ⟨by simp, ?_⟩
              intro z hz
              exact (hbuck (k, w :: u :: us) (List.mem_cons_self _ _)).2 z
                (List.mem_cons_of_mem _ hz)
            · exact hbuck p (List.mem_cons_of_mem _ hp')

/-- C10: on every reachable non-empty priority queue, `take` returns a value
that is first in the specified ordering among all queued values (the
highest-priority value, not the first value offered), and `take` on an
empty queue retries (`none`) until a value is present.  Which of several
equal-priority values is taken is not constrained. -/
theorem tpq_take_returns_highest_priority {A : Type} (cmp : A → A → Ordering)
    (L : LawfulCmp cmp) (q : TPQ A) (hr : ReachPQ cmp q) :
    (q.buckets = [] → take q = none) ∧
    (q.buckets ≠ [] → ∃ v q', take q = some (v, q') ∧ v ∈ elems q ∧
      ∀ w ∈ elems q, cmp v w = .lt ∨ cmp v w = .eq) := by
  obtain ⟨hsort, hbuck⟩ := invPQ_reach L hr
  constructor
  · intro hq
    unfold take
    rw [hq]
  · intro hq
    cases hqb : q.buckets with
    | nil => exact absurd hqb hq
    | cons hd rest =>
      obtain ⟨k, vs⟩ := hd
      rw [hqb] at hsort hbuck
      have hhd := hbuck (k, vs) (List.mem_cons_self _ _)
      cases vs with
      | nil => exact absurd rfl hhd.1
      | cons v vtail =>
        have hvk : cmp v k = .eq := hhd.2 v (List.mem_cons_self _ _)
        rw [List.map_cons, List.pairwise_cons] at hsort
        have hvelems : v ∈ elems q := by
          unfold elems
          rw [hqb]
          simp
        have hmin : ∀ w ∈ elems q, cmp v w = .lt ∨ cmp v w = .eq := by
          intro w hw
          unfold elems at hw
          rw [hqb] at hw
          simp only [List.map_cons, List.flatten_cons, List.mem_append] at hw
          rcases hw with hw1 | hw2
          · right
            have hwk : cmp w k = .eq := hhd.2 w hw1
            exact L.eq_trans v k w hvk (L.eq_symm w k hwk)
          · left
            obtain ⟨l, hl, hwl⟩ := List.mem_flatten.mp hw2
            obtain ⟨p, hp, rfl⟩ := List.mem_map.mp hl
            have hkp : cmp k p.1 = .lt :=
              hsort.1 p.1 (List.mem_map_of_mem Prod.fst hp)
            have hwp : cmp w p.1 = .eq :=
              (hbuck p (List.mem_cons_of_mem _ hp)).2 w hwl
            exact L.lt_eq v p.1 w (L.eq_lt v k p.1 hvk hkp) (L.eq_symm w p.1 hwp)
        cases vtail with
        | nil =>
          refine ⟨v, ⟨rest⟩, ?_, hvelems, hmin⟩
          unfold take
          rw [hqb]
        | cons u us =>
          refine ⟨v, ⟨(k, u :: us) :: rest⟩, ?_, hvelems, hmin⟩
          unfold take
          rw [hqb]

/-- The boolean comparator used by the priority-queue witness. -/
def cmpB : Bool → Bool → Ordering := fun a b => compare a b

theorem lawful_cmpB : LawfulCmp cmpB :=
  ⟨by decide, by decide, by decide, by decide, by decide, by decide, by decide⟩

theorem tpq_take_returns_highest_priority_witness :
    ∃ v q', take (offer cmpB (offer cmpB (emptyPQ Bool) true) false) = some (v, q') ∧
      v ∈ elems (offer cmpB (offer cmpB (emptyPQ Bool) true) false) ∧
      ∀ w ∈ elems (offer cmpB (offer cmpB (emptyPQ Bool) true) false),
        cmpB v w = .lt ∨ cmpB v w = .eq :=
  (tpq_take_returns_highest_priority cmpB lawful_cmpB
    (offer cmpB (offer cmpB (emptyPQ Bool) true) false)
    (ReachPQ.offer (ReachPQ.offer ReachPQ.empty))).2 (by decide)

end PQSpec
